import Mathlib

/-!
A shallow embedding of the grounding-and-execution layer of the `symbolic`
PDDL engine (`src/pddl.cc`), together with theorems settling the frozen
claims about its specification.

The façade functions (`Pddl::NextState`, `Pddl::IsValidAction`,
`Pddl::IsValidTuple`, `Pddl::IsValidPlan`, `Pddl::ListValidArguments`,
`Pddl::ListValidActions`, `ParsePddl`, `ParseState`, `GetObjects`,
`CreateObjectTypeMap`, `GetInitialState`, `Apply`, `Stringify`) are
translated directly from `pddl.cc`.  The collaborating classes whose
sources are not part of this repository snapshot (`Object`, `Proposition`,
`State`, `Action`, `DerivedPredicate`, `ParameterGenerator`, the goal
evaluator) are modelled from the specification, as marked in their doc
comments.
-/

namespace Symbolic

/-- Modelled from the spec: an Object is a name plus the set of type names
it satisfies (its own type and all ancestor types); identity is its name. -/
structure Object where
  name : String
  typeNames : List String
deriving DecidableEq, Repr

/-- Modelled from the spec: a Proposition is a predicate name plus an
ordered sequence of Object arguments; equality is name plus argument
sequence. -/
structure Proposition where
  name : String
  args : List Object
deriving DecidableEq, Repr

/-- Modelled from the spec: a State is a set of Propositions with set
semantics (membership, union, equality, insertion/removal; insertion order
irrelevant, no duplicates). -/
abbrev State := Finset Proposition

/-- Modelled from the spec: renders an argument list as
`arg1, arg2, ...` (the separator of the canonical text form). -/
def joinArgs : List Object → String
  | [] => ""
  | [o] => o.name
  | o :: rest => o.name ++ ", " ++ joinArgs rest

/-- Modelled from the spec: canonical text of a proposition or action
call, `name(arg1, arg2, ...)` (zero arguments rendered as `name()`). -/
def callText (name : String) (args : List Object) : String :=
  name ++ "(" ++ joinArgs args ++ ")"

/-- Modelled from the spec: `Proposition::to_string`, the canonical text
form `name(arg1, arg2, ...)`. -/
def Proposition.to_string (p : Proposition) : String :=
  callText p.name p.args

/-- Splits a character list at every comma (the token separator of the
canonical text form).  Always returns at least one chunk. -/
def splitComma : List Char → List (List Char)
  | [] => [[]]
  | c :: rest =>
    match splitComma rest with
    | [] => [[c]]
    | t :: ts => if c = ',' then [] :: t :: ts else (c :: t) :: ts

/-- Modelled from the spec: tokenization of the argument segment of a call
text: split at commas, then drop the leading blanks of each token. -/
def parseTokens (inner : List Char) : List String :=
  (splitComma inner).map (fun t => ⟨t.dropWhile (fun c => c == ' ')⟩)

/-- Modelled from the spec: splits a call text `name(arg1, arg2, ...)`
into the head name and the list of argument tokens; `none` if the text is
not of that shape. -/
def parseCall (s : String) : Option (String × List String) :=
  let name : List Char := s.data.takeWhile (fun c => c != '(')
  let rest : List Char := s.data.dropWhile (fun c => c != '(')
  if rest.head? = some '(' ∧ rest.getLast? = some ')' then
    let inner := rest.tail.dropLast
    some (⟨name⟩, if inner.isEmpty then [] else parseTokens inner)
  else none

/-- Modelled from the spec: an Action holds its name, its ordered typed
parameter list (each parameter restricted to one or more types), its
precondition check `IsValid(state, args)` (precondition evaluated by the
goal evaluator with arguments bound) and its pure effect application
`Apply(state, args)` (add/delete delta including conditional and
quantified effects, all conditions read against the pre-transition
state). -/
structure Action where
  name : String
  parameters : List (List String)
  IsValid : State → List Object → Bool
  Apply : State → List Object → State

/-- Modelled from the spec: `Action::to_string(args)`, the action-call
text `name(arg1, arg2, ...)`. -/
def Action.to_string (a : Action) (args : List Object) : String :=
  callText a.name args

/-- Modelled from the spec: the mutating form of `Action::Apply`, which
advances the state in place and returns whether anything changed; it must
be semantically equivalent to the pure form. -/
def Action.ApplyMut (a : Action) (args : List Object) (state : State) :
    Bool × State :=
  let next := a.Apply state args
  (decide (next ≠ state), next)

/-- Modelled from the spec: a derived predicate, presented by its finite
list of groundings; each grounding carries the head proposition and the
body goal-expression evaluated against a state. -/
structure DerivedPredicate where
  groundings : List (Proposition × (State → Bool))

/-- Modelled from the spec: one full pass over all derived predicates:
for every grounding, evaluate the body against the current (already
partially derived) state and, if true, add the head proposition. -/
def dpPass (preds : List DerivedPredicate) (s : State) : State :=
  preds.foldl
    (fun acc p =>
      p.groundings.foldl
        (fun acc2 g => if g.2 acc2 then insert g.1 acc2 else acc2) acc)
    s

/-- Iterates `dpPass` until a pass adds nothing, with explicit fuel. -/
def dpClose (preds : List DerivedPredicate) : Nat → State → State
  | 0, s => s
  | n + 1, s =>
    let s2 := dpPass preds s
    if s2 = s then s else dpClose preds n s2

/-- Modelled from the spec: `DerivedPredicate::Apply(predicates, state)`,
the closure engine: repeat full passes until a fixpoint; monotonic, so it
terminates within (number of possible head groundings) productive
passes. -/
def DerivedPredicate.ApplyAll (preds : List DerivedPredicate) (s : State) :
    State :=
  dpClose preds ((preds.map (fun p => p.groundings.length)).sum + 1) s

/-- Modelled from the spec: the changed-flag form of the closure engine:
runs the closure in place and returns whether anything changed. -/
def DerivedPredicate.ApplyMut (preds : List DerivedPredicate) (s : State) :
    Bool × State :=
  let next := DerivedPredicate.ApplyAll preds s
  (decide (next ≠ s), next)

/-- From `pddl.cc` (`GetObjects`): the object list is the domain constants
followed by the problem objects. -/
def GetObjects (domain_constants problem_objects : List Object) :
    List Object :=
  domain_constants ++ problem_objects

/-- One `object_map[type].push_back(object)` step of
`CreateObjectTypeMap`: append the object to the entry of `type`, creating
the entry if absent. -/
def mapInsert (m : List (String × List Object)) (t : String) (o : Object) :
    List (String × List Object) :=
  match m with
  | [] => [(t, [o])]
  | (t2, os) :: rest =>
    if t2 = t then (t2, os ++ [o]) :: rest else (t2, os) :: mapInsert rest t o

/-- From `pddl.cc` (`CreateObjectTypeMap`): for each object, push it into
the map entry of every type it satisfies. -/
def CreateObjectTypeMap (objects : List Object) :
    List (String × List Object) :=
  objects.foldl
    (fun m o => o.typeNames.foldl (fun m2 t => mapInsert m2 t o) m) []

/-- Lookup in the type index; a type with no entry has no members. -/
def lookupTypeMap (m : List (String × List Object)) (t : String) :
    List Object :=
  ((m.find? (fun e => e.1 = t)).map Prod.snd).getD []

/-- From `pddl.cc` (`GetInitialState`): the initial State collects the
ground propositions of the problem's initial-effects list into a set; no
closure is run on it. -/
def GetInitialState (initial_effects : List Proposition) : State :=
  initial_effects.foldl (fun s p => insert p s) ∅

/-- The façade (`Pddl`): holds the pieces of the validated tree the
runtime layer reads (constants, problem objects, actions, derived
predicates, the initial-effects list) plus the goal evaluator, modelled
from the spec as a boolean function of the State. -/
structure Pddl where
  domain_constants : List Object
  problem_objects : List Object
  actions : List Action
  derived_predicates : List DerivedPredicate
  initial_effects : List Proposition
  goal : State → Bool

/-- From the `Pddl` constructor: `objects_ = GetObjects(domain_, problem_)`. -/
def Pddl.objects (pddl : Pddl) : List Object :=
  GetObjects pddl.domain_constants pddl.problem_objects

/-- From the `Pddl` constructor:
`object_map_ = CreateObjectTypeMap(objects_)`, read through its lookup. -/
def Pddl.object_map (pddl : Pddl) : String → List Object :=
  lookupTypeMap (CreateObjectTypeMap pddl.objects)

/-- From the `Pddl` constructor:
`initial_state_ = GetInitialState(domain_, problem_)`. -/
def Pddl.initial_state (pddl : Pddl) : State :=
  GetInitialState pddl.initial_effects

/-- Resolves a list of argument tokens against the object registry,
failing on the first token that names no known object (the façade's
`UnknownObject` behavior). -/
def resolveTokens (pddl : Pddl) : List String → Option (List Object)
  | [] => some []
  | tok :: rest =>
    match pddl.objects.find? (fun o => o.name == tok),
        resolveTokens pddl rest with
    | some o, some os => some (o :: os)
    | _, _ => none

/-- Modelled from the spec: parsing a proposition string resolves the head
name and each argument token against the registry (`UnknownObject` on
failure, modelled as `none`). -/
def ParseProposition (pddl : Pddl) (s : String) : Option Proposition :=
  match parseCall s with
  | none => none
  | some (name, tokens) =>
    match resolveTokens pddl tokens with
    | none => none
    | some args => some ⟨name, args⟩

/-- From `pddl.cc` (`ParseState`): parses every proposition string of the
text-form state into a State; any parse failure aborts the call
(exceptions modelled as `none`). -/
def ParseState (pddl : Pddl) (str_state : Finset String) : Option State :=
  if h : ∀ s ∈ str_state, (ParseProposition pddl s).isSome then
    some (str_state.attach.image
      (fun x => (ParseProposition pddl x.1).get (h x.1 x.2)))
  else none

/-- Modelled from the spec: `Action::Parse` resolves the head of the call
text against the façade's action list (`UnknownAction` if absent), each
argument token against the object registry (`UnknownObject` if absent),
and checks the declared parameter count (`ArityMismatch` if violated). -/
def Action.Parse (pddl : Pddl) (action_call : String) :
    Option (Action × List Object) :=
  match parseCall action_call with
  | none => none
  | some (name, tokens) =>
    match pddl.actions.find? (fun a => a.name == name) with
    | none => none
    | some action =>
      match resolveTokens pddl tokens with
      | none => none
      | some args =>
        if args.length = action.parameters.length then some (action, args)
        else none

/-- From `pddl.cc` (`Stringify`): the text form of a State, the set of
its propositions' canonical texts. -/
def Stringify (state : State) : Finset String :=
  state.image Proposition.to_string

/-- From `pddl.cc` (the pure helper `Apply`): apply the action, then run
the derived-predicate closure on the result. -/
def Apply (state : State) (action : Action) (arguments : List Object)
    (predicates : List DerivedPredicate) : State :=
  DerivedPredicate.ApplyAll predicates (action.Apply state arguments)

/-- From `pddl.cc` (the in-place helper `Apply`): apply the action in
place, then the closure, returning whether either changed anything. -/
def ApplyInPlace (action : Action) (arguments : List Object)
    (predicates : List DerivedPredicate) (state : State) : Bool × State :=
  let r1 := action.ApplyMut arguments state
  let r2 := DerivedPredicate.ApplyMut predicates r1.2
  (r1.1 || r2.1, r2.2)

/-- From `pddl.cc` (`Pddl::NextState`, pure overload): parse the action
call and apply it (effects, then closure) with no precondition check;
parse failure modelled as `none`. -/
def Pddl.NextState (pddl : Pddl) (state : State) (action_call : String) :
    Option State :=
  match Action.Parse pddl action_call with
  | none => none
  | some (action, arguments) =>
    some (Apply state action arguments pddl.derived_predicates)

/-- From `pddl.cc` (`Pddl::NextState`, text overload): parse the state and
the action call, advance the state in place, and stringify the result. -/
def Pddl.NextStateStr (pddl : Pddl) (str_state : Finset String)
    (action_call : String) : Option (Finset String) :=
  match ParseState pddl str_state with
  | none => none
  | some state =>
    match Action.Parse pddl action_call with
    | none => none
    | some (action, arguments) =>
      some (Stringify
        (ApplyInPlace action arguments pddl.derived_predicates state).2)

/-- From `pddl.cc` (`Pddl::IsValidAction`): parse the call and evaluate
the action's precondition in the given state. -/
def Pddl.IsValidAction (pddl : Pddl) (state : State) (action_call : String) :
    Option Bool :=
  match Action.Parse pddl action_call with
  | none => none
  | some (action, arguments) => some (action.IsValid state arguments)

/-- From `pddl.cc` (`Pddl::IsValidTuple`): the action is valid in `state`
and applying it (with closure) yields exactly `next_state`. -/
def Pddl.IsValidTuple (pddl : Pddl) (state : State) (action_call : String)
    (next_state : State) : Option Bool :=
  match Action.Parse pddl action_call with
  | none => none
  | some (action, arguments) =>
    some (action.IsValid state arguments &&
      decide (Apply state action arguments pddl.derived_predicates =
        next_state))

/-- The loop body of `Pddl::IsValidPlan`: parse each call, return `false`
on the first invalid action, otherwise advance the state in place; after
the sequence, test the goal. -/
def IsValidPlanAux (pddl : Pddl) : State → List String → Option Bool
  | state, [] => some (pddl.goal state)
  | state, action_call :: rest =>
    match Action.Parse pddl action_call with
    | none => none
    | some (action, arguments) =>
      if action.IsValid state arguments then
        IsValidPlanAux pddl
          (ApplyInPlace action arguments pddl.derived_predicates state).2 rest
      else some false

/-- From `pddl.cc` (`Pddl::IsValidPlan`): fold the plan from the façade's
initial state. -/
def Pddl.IsValidPlan (pddl : Pddl) (action_skeleton : List String) :
    Option Bool :=
  IsValidPlanAux pddl pddl.initial_state action_skeleton

/-- Modelled from the spec: the Parameter Generator's universe for one
typed parameter: the union, over the allowed types, of the objects of each
type in the type index, duplicates removed. -/
def paramObjects (object_map : String → List Object) (types : List String) :
    List Object :=
  (types.flatMap object_map).dedup

/-- The Cartesian product of a list of choice lists, first list
outermost. -/
def cartesian : List (List Object) → List (List Object)
  | [] => [[]]
  | l :: ls => l.flatMap (fun x => (cartesian ls).map (fun xs => x :: xs))

/-- Modelled from the spec: the Parameter Generator enumerates the
Cartesian product over, for each parameter, the objects satisfying any of
its allowed types. -/
def ParameterGenerator (object_map : String → List Object)
    (parameters : List (List String)) : List (List Object) :=
  cartesian (parameters.map (paramObjects object_map))

/-- From `pddl.cc` (`Pddl::ListValidArguments`): the generator tuples for
which the action's precondition holds. -/
def Pddl.ListValidArguments (pddl : Pddl) (state : State) (action : Action) :
    List (List Object) :=
  (ParameterGenerator pddl.object_map action.parameters).filter
    (fun args => action.IsValid state args)

/-- From `pddl.cc` (`Pddl::ListValidActions`): for every action of the
façade, every valid argument tuple, rendered as action-call text. -/
def Pddl.ListValidActions (pddl : Pddl) (state : State) : List String :=
  pddl.actions.flatMap
    (fun action =>
      (pddl.ListValidArguments state action).map
        (fun args => action.to_string args))

/-- The parser's analysis record: `the_domain` and `the_problem` are null
until the corresponding parse succeeds (`VAL::analysis`). -/
structure VALAnalysis (Dom Prob : Type) where
  the_domain : Option Dom
  the_problem : Option Prob

/-- From `pddl.cc` (`ParsePddl`): parse the domain file and throw (named
after the domain file) if `the_domain` is still null; then parse the
problem file and throw (named after the problem file) if — as the code is
written — `the_domain` is still null.  The parse outcomes of the two
files are passed in as the results the two `yyparse()` calls leave in the
analysis record. -/
def ParsePddl {Dom Prob : Type} (filename_domain filename_problem : String)
    (domain_result : Option Dom) (problem_result : Option Prob) :
    Except String (VALAnalysis Dom Prob) :=
  let analysis : VALAnalysis Dom Prob :=
    { the_domain := domain_result, the_problem := none }
  if analysis.the_domain.isNone then
    Except.error
      ("ParsePddl(): Unable to parse domain from file: " ++ filename_domain)
  else
    let analysis2 : VALAnalysis Dom Prob :=
      { analysis with the_problem := problem_result }
    if analysis2.the_domain.isNone then
      Except.error
        ("ParsePddl(): Unable to parse problem from file: " ++
          filename_problem)
    else Except.ok analysis2

/-- The plan fold described by the spec: starting from a state, check each
action's precondition in the state reached so far, short-circuit to
`false` on the first invalid action, advance by the pure `Apply` followed
by closure, and finally test the goal. -/
def planFoldSpec (pddl : Pddl) : State → List String → Option Bool
  | state, [] => some (pddl.goal state)
  | state, action_call :: rest =>
    match Action.Parse pddl action_call with
    | none => none
    | some (action, arguments) =>
      if action.IsValid state arguments then
        planFoldSpec pddl (Apply state action arguments
          pddl.derived_predicates) rest
      else some false

/-- A character that can occur in a PDDL identifier: not one of the four
delimiters of the call text form. -/
def cleanChar (c : Char) : Bool :=
  c != '(' && c != ')' && c != ',' && c != ' '

/-- A usable identifier: nonempty and made of clean characters. -/
def cleanName (s : String) : Bool :=
  !s.data.isEmpty && s.data.all cleanChar

/-- An object of a façade is well-registered when its name is a clean
identifier and looking its name up in the registry yields the object
itself (names are unique within a loaded domain+problem pair). -/
def Registered (pddl : Pddl) (o : Object) : Prop :=
  cleanName o.name = true ∧
    pddl.objects.find? (fun x => x.name == o.name) = some o

/-- A proposition of a reachable state: clean predicate name, and every
argument well-registered. -/
def GoodProp (pddl : Pddl) (p : Proposition) : Prop :=
  cleanName p.name = true ∧ ∀ o ∈ p.args, Registered pddl o

theorem takeWhile_append_all {α : Type} (p : α → Bool) (xs ys : List α)
    (h : ∀ c ∈ xs, p c = true) :
    (xs ++ ys).takeWhile p = xs ++ ys.takeWhile p := by
  induction xs with
  | nil => simp
  | cons c xs ih =>
    have hc : p c = true := h c (by simp)
    simp [List.takeWhile_cons, hc]
    exact ih (fun d hd => h d (by simp [hd]))

theorem dropWhile_append_all {α : Type} (p : α → Bool) (xs ys : List α)
    (h : ∀ c ∈ xs, p c = true) :
    (xs ++ ys).dropWhile p = ys.dropWhile p := by
  induction xs with
  | nil => simp
  | cons c xs ih =>
    have hc : p c = true := h c (by simp)
    simp [List.dropWhile_cons, hc]
    exact ih (fun d hd => h d (by simp [hd]))

theorem dropWhile_all_neg {α : Type} (p : α → Bool) (l : List α)
    (h : ∀ c ∈ l, p c = false) : l.dropWhile p = l := by
  cases l with
  | nil => rfl
  | cons c rest => simp [List.dropWhile_cons, h c (by simp)]

theorem splitComma_ne_nil (l : List Char) : splitComma l ≠ [] := by
  induction l with
  | nil => simp [splitComma]
  | cons c rest ih =>
    simp only [splitComma]
    cases h : splitComma rest with
    | nil => simp
    | cons t ts =>
      by_cases hc : c = ',' <;> simp [hc]

theorem splitComma_no_comma (l : List Char) (h : ∀ c ∈ l, c ≠ ',') :
    splitComma l = [l] := by
  induction l with
  | nil => rfl
  | cons c rest ih =>
    have hr : splitComma rest = [rest] :=
      ih (fun d hd => h d (by simp [hd]))
    simp only [splitComma, hr]
    simp [h c (by simp)]

theorem splitComma_append (xs ys : List Char) (h : ∀ c ∈ xs, c ≠ ',') :
    splitComma (xs ++ ',' :: ys) = xs :: splitComma ys := by
  induction xs with
  | nil =>
    simp only [List.nil_append, splitComma]
    cases hy : splitComma ys with
    | nil => exact absurd hy (splitComma_ne_nil ys)
    | cons t ts => simp
  | cons c xs ih =>
    have hr := ih (fun d hd => h d (by simp [hd]))
    simp only [List.cons_append, splitComma, List.append_eq]
    rw [hr]
    simp [h c (by simp)]

theorem cleanName_chars (s : String) (h : cleanName s = true) :
    s.data ≠ [] ∧ ∀ c ∈ s.data,
      c ≠ '(' ∧ c ≠ ')' ∧ c ≠ ',' ∧ c ≠ ' ' := by
  simp only [cleanName, cleanChar, Bool.and_eq_true, List.all_eq_true,
    Bool.not_eq_true'] at h
  have h1 : ¬ s.data.isEmpty = true := by simp [h.1]
  rw [List.isEmpty_iff] at h1
  refine ⟨h1, fun c hc => ?_⟩
  have := h.2 c hc
  simp only [bne_iff_ne, ne_eq, Bool.and_eq_true] at this
  tauto

theorem parseTokens_joinArgs (o : Object) (args : List Object)
    (h : ∀ x ∈ o :: args, cleanName x.name = true) :
    parseTokens (joinArgs (o :: args)).data =
      (o :: args).map (fun x => x.name) := by
  induction args generalizing o with
  | nil =>
    have hc := cleanName_chars o.name (h o (by simp))
    simp only [joinArgs, parseTokens]
    rw [splitComma_no_comma o.name.data (fun c hc2 => (hc.2 c hc2).2.2.1)]
    simp only [List.map_cons, List.map_nil]
    rw [dropWhile_all_neg _ o.name.data
      (fun c hc2 => by simp [(hc.2 c hc2).2.2.2])]
  | cons r rest ih =>
    have hc := cleanName_chars o.name (h o (by simp))
    have hj : joinArgs (o :: r :: rest) =
        o.name ++ ", " ++ joinArgs (r :: rest) := rfl
    have hsep : (", " : String).data = [',', ' '] := rfl
    have hdata : (joinArgs (o :: r :: rest)).data =
        o.name.data ++ ',' :: ' ' :: (joinArgs (r :: rest)).data := by
      rw [hj, String.data_append, String.data_append, hsep]
      simp
    have hprev := ih r (fun x hx => h x (by simp at hx ⊢; tauto))
    simp only [parseTokens] at hprev ⊢
    rw [hdata, splitComma_append o.name.data (' ' :: (joinArgs
      (r :: rest)).data) (fun c hc2 => (hc.2 c hc2).2.2.1)]
    obtain ⟨t, ts, hts⟩ : ∃ t ts,
        splitComma (joinArgs (r :: rest)).data = t :: ts := by
      cases hsp : splitComma (joinArgs (r :: rest)).data with
      | nil => exact absurd hsp (splitComma_ne_nil _)
      | cons t ts => exact ⟨t, ts, rfl⟩
    have hsp2 : splitComma (' ' :: (joinArgs (r :: rest)).data) =
        (' ' :: t) :: ts := by
      simp [splitComma, hts]
    rw [hsp2]
    rw [hts] at hprev
    simp only [List.map_cons] at hprev ⊢
    rw [dropWhile_all_neg _ o.name.data
      (fun c hc2 => by simp [(hc.2 c hc2).2.2.2])]
    have htrim : (' ' :: t).dropWhile (fun c => c == ' ') =
        t.dropWhile (fun c => c == ' ') := by
      simp [List.dropWhile_cons]
    rw [htrim]
    exact congrArg (fun l => (⟨o.name.data⟩ : String) :: l) hprev

theorem callText_data (name : String) (args : List Object) :
    (callText name args).data =
      name.data ++ '(' :: ((joinArgs args).data ++ [')']) := by
  simp only [callText, String.data_append]
  simp

theorem joinArgs_data_ne_nil (o : Object) (args : List Object)
    (h : cleanName o.name = true) :
    (joinArgs (o :: args)).data ≠ [] := by
  cases args with
  | nil => exact (cleanName_chars o.name h).1
  | cons r rest =>
    have hj : joinArgs (o :: r :: rest) =
        o.name ++ ", " ++ joinArgs (r :: rest) := rfl
    rw [hj, String.data_append, String.data_append]
    intro hcontra
    exact (cleanName_chars o.name h).1 (by
      have := List.append_eq_nil.mp (List.append_eq_nil.mp hcontra).1
      exact this.1)

theorem parseCall_callText (name : String) (args : List Object)
    (hn : cleanName name = true) (ha : ∀ o ∈ args, cleanName o.name = true) :
    parseCall (callText name args) =
      some (name, args.map (fun o => o.name)) := by
  have hnc := cleanName_chars name hn
  have hp : ∀ c ∈ name.data, (c != '(') = true :=
    fun c hc => by simp [(hnc.2 c hc).1]
  have hdata := callText_data name args
  simp only [parseCall, hdata]
  rw [takeWhile_append_all _ name.data _ hp,
    dropWhile_append_all _ name.data _ hp]
  have htw : (('(' : Char) :: ((joinArgs args).data ++
      [')'])).takeWhile (fun c => c != '(') = [] := by
    simp [List.takeWhile_cons]
  have hdw : (('(' : Char) :: ((joinArgs args).data ++
      [')'])).dropWhile (fun c => c != '(') =
      '(' :: ((joinArgs args).data ++ [')']) := by
    simp [List.dropWhile_cons]
  rw [htw, hdw]
  have hhead : (('(' : Char) :: ((joinArgs args).data ++
      [')'])).head? = some '(' := rfl
  have hlast : (('(' : Char) :: ((joinArgs args).data ++
      [')'])).getLast? = some ')' := by
    rw [show ('(' : Char) :: ((joinArgs args).data ++ [')']) =
      ('(' :: (joinArgs args).data) ++ [')'] from rfl]
    exact List.getLast?_concat _
  rw [if_pos ⟨hhead, hlast⟩]
  simp only [List.tail_cons, List.dropLast_concat, List.append_nil]
  cases args with
  | nil =>
    have hje : (joinArgs []).data = [] := rfl
    rw [hje]
    simp
  | cons o rest =>
    have hne := joinArgs_data_ne_nil o rest (ha o (by simp))
    rw [if_neg (by simpa [List.isEmpty_iff] using hne)]
    rw [parseTokens_joinArgs o rest ha]

theorem resolveTokens_map_name (pddl : Pddl) (args : List Object)
    (h : ∀ o ∈ args, Registered pddl o) :
    resolveTokens pddl (args.map (fun o => o.name)) = some args := by
  induction args with
  | nil => rfl
  | cons o rest ih =>
    have ho := (h o (by simp)).2
    have hr := ih (fun x hx => h x (by simp [hx]))
    simp only [List.map_cons, resolveTokens, ho, hr]

theorem parseProposition_to_string (pddl : Pddl) (p : Proposition)
    (h : GoodProp pddl p) :
    ParseProposition pddl p.to_string = some p := by
  have hcall := parseCall_callText p.name p.args h.1
    (fun o ho => (h.2 o ho).1)
  simp only [ParseProposition, Proposition.to_string, hcall,
    resolveTokens_map_name pddl p.args h.2]

theorem actionParse_to_string (pddl : Pddl) (a : Action)
    (args : List Object) (hn : cleanName a.name = true)
    (hfind : pddl.actions.find? (fun x => x.name == a.name) = some a)
    (ha : ∀ o ∈ args, Registered pddl o)
    (hlen : args.length = a.parameters.length) :
    Action.Parse pddl (a.to_string args) = some (a, args) := by
  have hcall := parseCall_callText a.name args hn (fun o ho => (ha o ho).1)
  simp only [Action.Parse, Action.to_string, hcall, hfind,
    resolveTokens_map_name pddl args ha]
  simp [hlen]

theorem option_get_eq {α : Type} (o : Option α) (h : o.isSome = true)
    (a : α) : o.get h = a ↔ o = some a := by
  cases o with
  | none => simp at h
  | some b => simp

theorem parseState_stringify (pddl : Pddl) (S : State)
    (h : ∀ p ∈ S, GoodProp pddl p) :
    ParseState pddl (Stringify S) = some S := by
  have hmem : ∀ s ∈ Stringify S, ∃ p ∈ S, Proposition.to_string p = s := by
    intro s hs
    simpa only [Stringify, Finset.mem_image] using hs
  have hsome : ∀ s ∈ Stringify S,
      (ParseProposition pddl s).isSome = true := by
    intro s hs
    obtain ⟨p, hp, hps⟩ := hmem s hs
    rw [← hps, parseProposition_to_string pddl p (h p hp)]
    rfl
  simp only [ParseState]
  rw [dif_pos hsome]
  congr 1
  apply Finset.ext
  intro q
  constructor
  · intro hq
    simp only [Finset.mem_image, Finset.mem_attach, true_and,
      Subtype.exists] at hq
    obtain ⟨s, hs, hget⟩ := hq
    obtain ⟨p, hp, hps⟩ := hmem s hs
    have hparse : ParseProposition pddl s = some p := by
      rw [← hps]
      exact parseProposition_to_string pddl p (h p hp)
    have := (option_get_eq _ (hsome s hs) q).mp hget
    rw [hparse] at this
    rw [Option.some_inj.mp this.symm]
    exact hp
  · intro hq
    have hparse := parseProposition_to_string pddl q (h q hq)
    have hsq : Proposition.to_string q ∈ Stringify S :=
      Finset.mem_image_of_mem _ hq
    simp only [Finset.mem_image, Finset.mem_attach, true_and,
      Subtype.exists]
    exact ⟨q.to_string, hsq, (option_get_eq _ (hsome _ hsq) q).mpr hparse⟩

theorem lookupTypeMap_nil (t : String) : lookupTypeMap [] t = [] := rfl

theorem lookupTypeMap_cons (t3 : String) (os : List Object)
    (rest : List (String × List Object)) (t2 : String) :
    lookupTypeMap ((t3, os) :: rest) t2 =
      if t3 = t2 then os else lookupTypeMap rest t2 := by
  by_cases h : t3 = t2
  · subst h
    rw [lookupTypeMap, List.find?_cons_of_pos _ (by simp)]
    simp
  · rw [lookupTypeMap, List.find?_cons_of_neg _ (by simp [h])]
    simp [h, lookupTypeMap]

theorem lookupTypeMap_mapInsert (m : List (String × List Object))
    (t : String) (o : Object) (t2 : String) :
    lookupTypeMap (mapInsert m t o) t2 =
      if t2 = t then lookupTypeMap m t2 ++ [o] else lookupTypeMap m t2 := by
  induction m with
  | nil =>
    simp only [mapInsert, lookupTypeMap_cons, lookupTypeMap_nil]
    by_cases h : t2 = t
    · subst h
      simp
    · rw [if_neg (fun hc : t = t2 => h hc.symm), if_neg h]
  | cons e rest ih =>
    obtain ⟨t3, os⟩ := e
    simp only [mapInsert]
    by_cases h3 : t3 = t
    · subst h3
      rw [if_pos rfl, lookupTypeMap_cons, lookupTypeMap_cons]
      by_cases h : t3 = t2
      · subst h
        simp
      · rw [if_neg h, if_neg h]
        rw [if_neg (fun hc : t2 = t3 => h hc.symm)]
    · rw [if_neg h3, lookupTypeMap_cons, ih, lookupTypeMap_cons]
      by_cases h2 : t3 = t2
      · have ht2 : ¬ t2 = t := fun hc => h3 (h2.trans hc)
        simp [h2, ht2]
      · by_cases h4 : t2 = t <;> simp [h2, h3, h4]

theorem lookupTypeMap_foldl_types (o : Object) (types : List String)
    (m : List (String × List Object)) (t : String) (hnd : types.Nodup) :
    lookupTypeMap (types.foldl (fun m2 ty => mapInsert m2 ty o) m) t =
      lookupTypeMap m t ++ (if t ∈ types then [o] else []) := by
  induction types generalizing m with
  | nil => simp
  | cons ty tys ih =>
    have hnd2 : tys.Nodup := hnd.of_cons
    have hni : ty ∉ tys := by
      intro hc
      exact (List.nodup_cons.mp hnd).1 hc
    simp only [List.foldl_cons]
    rw [ih (mapInsert m ty o) hnd2, lookupTypeMap_mapInsert]
    by_cases h : t = ty
    · subst h
      have : t ∉ tys := hni
      simp [this]
    · by_cases h2 : t ∈ tys <;> simp [h, h2]

theorem lookupTypeMap_create_aux (objects : List Object)
    (m : List (String × List Object)) (t : String)
    (h : ∀ o ∈ objects, o.typeNames.Nodup) :
    lookupTypeMap
      (objects.foldl
        (fun m2 o => o.typeNames.foldl (fun m3 ty => mapInsert m3 ty o) m2)
        m) t =
      lookupTypeMap m t ++
        objects.filter (fun o => decide (t ∈ o.typeNames)) := by
  induction objects generalizing m with
  | nil => simp
  | cons o rest ih =>
    simp only [List.foldl_cons]
    rw [ih _ (fun x hx => h x (by simp [hx])),
      lookupTypeMap_foldl_types o o.typeNames m t (h o (by simp))]
    by_cases hmem : t ∈ o.typeNames <;>
      simp [hmem, List.filter_cons]

theorem lookupTypeMap_create (objects : List Object) (t : String)
    (h : ∀ o ∈ objects, o.typeNames.Nodup) :
    lookupTypeMap (CreateObjectTypeMap objects) t =
      objects.filter (fun o => decide (t ∈ o.typeNames)) := by
  simp only [CreateObjectTypeMap]
  rw [lookupTypeMap_create_aux objects [] t h]
  rfl

theorem getInitialState_aux (l : List Proposition) (s : State) :
    l.foldl (fun s2 p => insert p s2) s = s ∪ l.toFinset := by
  induction l generalizing s with
  | nil => simp
  | cons p rest ih =>
    simp only [List.foldl_cons, List.toFinset_cons]
    rw [ih, Finset.insert_union, Finset.union_insert]

theorem getInitialState_toFinset (l : List Proposition) :
    GetInitialState l = l.toFinset := by
  simp only [GetInitialState]
  rw [getInitialState_aux]
  simp

theorem applyInPlace_snd (action : Action) (arguments : List Object)
    (predicates : List DerivedPredicate) (state : State) :
    (ApplyInPlace action arguments predicates state).2 =
      Apply state action arguments predicates := rfl

theorem isValidPlanAux_eq_planFoldSpec (pddl : Pddl) (P : List String)
    (s : State) : IsValidPlanAux pddl s P = planFoldSpec pddl s P := by
  induction P generalizing s with
  | nil => rfl
  | cons call rest ih =>
    simp only [IsValidPlanAux, planFoldSpec]
    cases Action.Parse pddl call with
    | none => rfl
    | some pr =>
      obtain ⟨a, args⟩ := pr
      by_cases hv : a.IsValid s args <;>
        simp [hv, ih, applyInPlace_snd]

theorem cartesian_length (ls : List (List Object)) (xs : List Object)
    (h : xs ∈ cartesian ls) : xs.length = ls.length := by
  induction ls generalizing xs with
  | nil =>
    simp only [cartesian, List.mem_singleton] at h
    simp [h]
  | cons l ls ih =>
    simp only [cartesian, List.mem_flatMap, List.mem_map] at h
    obtain ⟨y, _, ys, hys, rfl⟩ := h
    simp [ih ys hys]

theorem cartesian_mem_subset (ls : List (List Object)) (xs : List Object)
    (h : xs ∈ cartesian ls) : ∀ x ∈ xs, ∃ l ∈ ls, x ∈ l := by
  induction ls generalizing xs with
  | nil =>
    simp only [cartesian, List.mem_singleton] at h
    subst h
    simp
  | cons l ls ih =>
    simp only [cartesian, List.mem_flatMap, List.mem_map] at h
    obtain ⟨y, hy, ys, hys, rfl⟩ := h
    intro x hx
    rcases List.mem_cons.mp hx with hxy | hxs
    · exact ⟨l, by simp, hxy ▸ hy⟩
    · obtain ⟨l2, hl2, hxl2⟩ := ih ys hys x hxs
      exact ⟨l2, by simp [hl2], hxl2⟩

theorem nodup_cartesian (ls : List (List Object))
    (h : ∀ l ∈ ls, l.Nodup) : (cartesian ls).Nodup := by
  induction ls with
  | nil => simp [cartesian]
  | cons l ls ih =>
    simp only [cartesian]
    rw [List.nodup_flatMap]
    refine ⟨fun x _ => ?_, ?_⟩
    · exact (ih (fun l2 hl2 => h l2 (by simp [hl2]))).map
        (fun a b hab => by simpa using hab)
    · have hl : l.Nodup := h l (by simp)
      refine hl.imp ?_
      intro a b hab
      intro xs hxa hxb
      simp only [List.mem_map] at hxa hxb
      obtain ⟨ys, _, rfl⟩ := hxa
      obtain ⟨zs, _, hz⟩ := hxb
      exact hab (by simpa using congrArg (fun w => w.head?) hz.symm)

theorem find?_action_of_nodup (actions : List Action) (a : Action)
    (hnd : (actions.map (fun x => x.name)).Nodup) (ha : a ∈ actions) :
    actions.find? (fun x => x.name == a.name) = some a := by
  induction actions with
  | nil => simp at ha
  | cons b rest ih =>
    by_cases hb : b.name = a.name
    · rw [List.find?_cons_of_pos _ (by simp [hb])]
      rcases List.mem_cons.mp ha with rfl | har
    <;> try rfl
      · exfalso
        have : a.name ∈ rest.map (fun x => x.name) :=
          List.mem_map_of_mem _ har
        rw [← hb] at this
        exact (List.nodup_cons.mp (by simpa using hnd)).1 this
    · rw [List.find?_cons_of_neg _ (by simp [hb])]
      rcases List.mem_cons.mp ha with rfl | har
      · exact absurd rfl hb
      · exact ih (by simpa using (List.nodup_cons.mp (by simpa using hnd)).2)
          har

theorem object_map_subset (pddl : Pddl) (t : String)
    (h : ∀ o ∈ pddl.objects, o.typeNames.Nodup) :
    ∀ o ∈ pddl.object_map t, o ∈ pddl.objects := by
  intro o ho
  have : pddl.object_map t =
      pddl.objects.filter (fun x => decide (t ∈ x.typeNames)) :=
    lookupTypeMap_create pddl.objects t h
  rw [this] at ho
  exact (List.mem_filter.mp ho).1

theorem paramObjects_subset (pddl : Pddl) (types : List String)
    (h : ∀ o ∈ pddl.objects, o.typeNames.Nodup) :
    ∀ o ∈ paramObjects pddl.object_map types, o ∈ pddl.objects := by
  intro o ho
  rw [paramObjects, List.mem_dedup, List.mem_flatMap] at ho
  obtain ⟨t, _, hot⟩ := ho
  exact object_map_subset pddl t h o hot

theorem parameterGenerator_subset (pddl : Pddl)
    (parameters : List (List String))
    (h : ∀ o ∈ pddl.objects, o.typeNames.Nodup) :
    ∀ args ∈ ParameterGenerator pddl.object_map parameters,
      ∀ o ∈ args, o ∈ pddl.objects := by
  intro args hargs o ho
  obtain ⟨l, hl, hol⟩ :=
    cartesian_mem_subset _ args hargs o ho
  rw [List.mem_map] at hl
  obtain ⟨types, _, rfl⟩ := hl
  exact paramObjects_subset pddl types h o hol

theorem parameterGenerator_length (object_map : String → List Object)
    (parameters : List (List String)) (args : List Object)
    (h : args ∈ ParameterGenerator object_map parameters) :
    args.length = parameters.length := by
  have := cartesian_length _ args h
  simpa using this

theorem parameterGenerator_nodup (object_map : String → List Object)
    (parameters : List (List String)) :
    (ParameterGenerator object_map parameters).Nodup := by
  refine nodup_cartesian _ ?_
  intro l hl
  rw [List.mem_map] at hl
  obtain ⟨types, _, rfl⟩ := hl
  exact (types.flatMap object_map).nodup_dedup

instance (pddl : Pddl) (o : Object) : Decidable (Registered pddl o) := by
  unfold Registered
  infer_instance

instance (pddl : Pddl) (p : Proposition) : Decidable (GoodProp pddl p) := by
  unfold GoodProp
  infer_instance

/-- The `block` scenario of the spec: object `a`. -/
def objA : Object := ⟨"a", ["block"]⟩

/-- The `block` scenario of the spec: object `b`. -/
def objB : Object := ⟨"b", ["block"]⟩

/-- The `block` scenario of the spec: `on-table(?b)`. -/
def onTable (o : Object) : Proposition := ⟨"on-table", [o]⟩

/-- The `block` scenario of the spec: action `pick-up(?b - block)` with
precondition `(on-table ?b)` and effect `(not (on-table ?b))`. -/
def pickUp : Action where
  name := "pick-up"
  parameters := [["block"]]
  IsValid := fun s args =>
    match args with
    | [o] => decide (onTable o ∈ s)
    | _ => false
  Apply := fun s args =>
    match args with
    | [o] => s.erase (onTable o)
    | _ => s

/-- The `block` scenario of the spec as a façade: objects `a`, `b`,
initial state `{on-table(a), on-table(b)}`, goal
`(and (not (on-table a)) (not (on-table b)))`. -/
def pddlBlocks : Pddl where
  domain_constants := []
  problem_objects := [objA, objB]
  actions := [pickUp]
  derived_predicates := []
  initial_effects := [onTable objA, onTable objB]
  goal := fun s => decide (onTable objA ∉ s) && decide (onTable objB ∉ s)

/-- A zero-ary proposition `p()`. -/
def propP : Proposition := ⟨"p", []⟩

/-- A zero-ary proposition `q()`. -/
def propQ : Proposition := ⟨"q", []⟩

/-- A zero-parameter action `mk()` whose precondition is `q()` and whose
effect adds `p()`. -/
def mkAct : Action where
  name := "mk"
  parameters := []
  IsValid := fun s _ => decide (propQ ∈ s)
  Apply := fun s _ => insert propP s

/-- A façade holding only the `mk()` action. -/
def pddlMk : Pddl where
  domain_constants := []
  problem_objects := []
  actions := [mkAct]
  derived_predicates := []
  initial_effects := []
  goal := fun _ => true

/-- An object of type `t1` only. -/
def objX : Object := ⟨"x", ["t1"]⟩

/-- An object of type `t2` only. -/
def objY : Object := ⟨"y", ["t2"]⟩

/-- An action with one parameter of type `t1` and a trivially true
precondition. -/
def actT : Action where
  name := "act"
  parameters := [["t1"]]
  IsValid := fun _ _ => true
  Apply := fun s _ => s

/-- A façade with objects of two types and the single action `act`. -/
def pddlTwoTypes : Pddl where
  domain_constants := []
  problem_objects := [objX, objY]
  actions := [actT]
  derived_predicates := []
  initial_effects := []
  goal := fun _ => true

/-- C1: `IsValidPlan(P)` equals the spec's fold over `P` from the façade's
initial state — each action's precondition is checked in the state reached
so far, the state is advanced by `Apply` followed by derived-predicate
closure, the final state is tested against the goal — and as soon as an
invalid action is encountered the result is `false`, independently of the
rest of the plan (which is neither applied nor parsed). -/
theorem pddl_isValidPlan_folds (pddl : Pddl) (P : List String) :
    pddl.IsValidPlan P = planFoldSpec pddl pddl.initial_state P ∧
    (∀ (s : State) (call : String) (a : Action) (args : List Object)
      (rest : List String), Action.Parse pddl call = some (a, args) →
      a.IsValid s args = false →
      IsValidPlanAux pddl s (call :: rest) = some false) := by
  refine ⟨isValidPlanAux_eq_planFoldSpec pddl P pddl.initial_state, ?_⟩
  intro s call a args rest hp hv
  simp [IsValidPlanAux, hp, hv]

/-- Witness for C1 on the blocks scenario: the two-step plan folds as the
spec describes, and a plan starting with `pick-up(a)` in a state where its
precondition fails is rejected at once. -/
theorem pddl_isValidPlan_folds_witness :
    pddlBlocks.IsValidPlan ["pick-up(a)", "pick-up(b)"] =
      planFoldSpec pddlBlocks pddlBlocks.initial_state
        ["pick-up(a)", "pick-up(b)"] ∧
    IsValidPlanAux pddlBlocks (∅ : State) ("pick-up(a)" :: ["pick-up(b)"]) =
      some false := by
  refine ⟨(pddl_isValidPlan_folds pddlBlocks
    ["pick-up(a)", "pick-up(b)"]).1, ?_⟩
  exact (pddl_isValidPlan_folds pddlBlocks []).2 ∅ "pick-up(a)" pickUp
    [objA] ["pick-up(b)"] (by rfl) (by decide)

/-- C2: `IsValidTuple(S, t, S2)` is true precisely when the parsed
action's precondition holds in `S` and applying it (with closure) yields a
state equal to `S2`. -/
theorem pddl_isValidTuple_iff (pddl : Pddl) (S : State) (t : String)
    (S2 : State) (a : Action) (args : List Object)
    (hp : Action.Parse pddl t = some (a, args)) :
    pddl.IsValidTuple S t S2 = some true ↔
      a.IsValid S args = true ∧
        Apply S a args pddl.derived_predicates = S2 := by
  simp [Pddl.IsValidTuple, hp, Bool.and_eq_true]

/-- Witness for C2 on the blocks scenario: picking up `a` from the initial
state yields exactly `{on-table(b)}`. -/
theorem pddl_isValidTuple_iff_witness :
    (pddlBlocks.IsValidTuple pddlBlocks.initial_state "pick-up(a)"
        ({onTable objB} : State) = some true ↔
      pickUp.IsValid pddlBlocks.initial_state [objA] = true ∧
        Apply pddlBlocks.initial_state pickUp [objA]
          pddlBlocks.derived_predicates = ({onTable objB} : State)) ∧
    pddlBlocks.IsValidTuple pddlBlocks.initial_state "pick-up(a)"
      ({onTable objB} : State) = some true := by
  refine ⟨pddl_isValidTuple_iff pddlBlocks pddlBlocks.initial_state
    "pick-up(a)" ({onTable objB} : State) pickUp [objA] (by rfl), ?_⟩
  decide

/-- C4: `NextState` performs no precondition check: whenever the action
call parses, the result is the action's effects followed by the
derived-predicate closure, and this holds in particular when the
precondition is false in the given state. -/
theorem pddl_nextState_unconditional (pddl : Pddl) (S : State) (t : String)
    (a : Action) (args : List Object)
    (hp : Action.Parse pddl t = some (a, args)) :
    pddl.NextState S t =
      some (DerivedPredicate.ApplyAll pddl.derived_predicates
        (a.Apply S args)) ∧
    (a.IsValid S args = false →
      pddl.NextState S t =
        some (DerivedPredicate.ApplyAll pddl.derived_predicates
          (a.Apply S args))) := by
  refine ⟨?_, fun _ => ?_⟩ <;> simp [Pddl.NextState, hp, Apply]

/-- Witness for C4: `pick-up(a)` is applied from the empty state even
though its precondition fails there. -/
theorem pddl_nextState_unconditional_witness :
    pddlBlocks.NextState (∅ : State) "pick-up(a)" =
      some (DerivedPredicate.ApplyAll pddlBlocks.derived_predicates
        (pickUp.Apply (∅ : State) [objA])) ∧
    (pickUp.IsValid (∅ : State) [objA] = false →
      pddlBlocks.NextState (∅ : State) "pick-up(a)" =
        some (DerivedPredicate.ApplyAll pddlBlocks.derived_predicates
          (pickUp.Apply (∅ : State) [objA]))) :=
  pddl_nextState_unconditional pddlBlocks ∅ "pick-up(a)" pickUp [objA]
    (by rfl)

/-- C5 (counterexample): with the precondition of `mk()` false in the
empty state, `IsValidAction` reports false but `NextState` does not leave
the state unchanged — the add-effect is applied anyway, so the claim that
the state is left unchanged by the action's effects is false. -/
theorem pddl_invalid_action_changes_state_counterexample :
    pddlMk.IsValidAction (∅ : State) "mk()" = some false ∧
    pddlMk.NextState (∅ : State) "mk()" ≠ some (∅ : State) := by
  refine ⟨by decide, ?_⟩
  decide

/-- C5 (amended): when the precondition of a parsed action call is false,
applying it unconditionally raises no error and `IsValidAction` reports
false, but the resulting state is the action's effects plus closure,
which may differ from the input state. -/
theorem pddl_nextState_invalid_no_error (pddl : Pddl) (S : State)
    (t : String) (a : Action) (args : List Object)
    (hp : Action.Parse pddl t = some (a, args))
    (hv : a.IsValid S args = false) :
    (pddl.NextState S t).isSome = true ∧
    pddl.NextState S t = some (Apply S a args pddl.derived_predicates) ∧
    pddl.IsValidAction S t = some false := by
  refine ⟨?_, ?_, ?_⟩ <;>
    simp [Pddl.NextState, Pddl.IsValidAction, hp, hv]

/-- Witness for the amended C5 at the `mk()` action and the empty
state. -/
theorem pddl_nextState_invalid_no_error_witness :
    (pddlMk.NextState (∅ : State) "mk()").isSome = true ∧
    pddlMk.NextState (∅ : State) "mk()" =
      some (Apply (∅ : State) mkAct [] pddlMk.derived_predicates) ∧
    pddlMk.IsValidAction (∅ : State) "mk()" = some false :=
  pddl_nextState_invalid_no_error pddlMk ∅ "mk()" mkAct [] (by rfl)
    (by decide)

/-- C3: the two `NextState` overloads agree: on a state whose propositions
are well-registered, the text overload applied to the stringified state
returns exactly the stringified result of the pure overload (and both fail
together when the action call does not parse). -/
theorem pddl_nextState_overloads_agree (pddl : Pddl) (S : State)
    (t : String) (h : ∀ p ∈ S, GoodProp pddl p) :
    pddl.NextStateStr (Stringify S) t =
      (pddl.NextState S t).map Stringify := by
  simp only [Pddl.NextStateStr, parseState_stringify pddl S h]
  cases hp : Action.Parse pddl t with
  | none => simp [Pddl.NextState, hp]
  | some pr =>
    obtain ⟨a, args⟩ := pr
    simp [Pddl.NextState, hp, applyInPlace_snd, Apply]

/-- Witness for C3 on the blocks scenario's initial state. -/
theorem pddl_nextState_overloads_agree_witness :
    pddlBlocks.NextStateStr (Stringify pddlBlocks.initial_state)
        "pick-up(a)" =
      (pddlBlocks.NextState pddlBlocks.initial_state "pick-up(a)").map
        Stringify :=
  pddl_nextState_overloads_agree pddlBlocks pddlBlocks.initial_state
    "pick-up(a)" (by decide)

/-- C7: parsing the textual form of a state whose propositions are
well-registered (as every reachable state's are) reconstructs the state
exactly: `ParseState(Stringify(S)) = S`. -/
theorem parseState_roundtrip (pddl : Pddl) (S : State)
    (h : ∀ p ∈ S, GoodProp pddl p) :
    ParseState pddl (Stringify S) = some S :=
  parseState_stringify pddl S h

/-- Witness for C7 on the blocks scenario's initial state. -/
theorem parseState_roundtrip_witness :
    ParseState pddlBlocks (Stringify pddlBlocks.initial_state) =
      some pddlBlocks.initial_state :=
  parseState_roundtrip pddlBlocks pddlBlocks.initial_state (by decide)

/-- C8 (code bug): when the domain parses but the problem does not,
`ParsePddl` re-checks `the_domain` instead of `the_problem`, so it
returns normally with a null problem instead of aborting with the error
naming the problem file; the domain-side check does abort naming the
domain file. -/
theorem parsePddl_problem_check_bug :
    ParsePddl "domain.pddl" "problem.pddl" (some ()) (none : Option Unit) =
      Except.ok ⟨some (), none⟩ ∧
    ParsePddl "domain.pddl" "problem.pddl" (none : Option Unit)
        (some ()) =
      Except.error
        "ParsePddl(): Unable to parse domain from file: domain.pddl" := by
  exact ⟨rfl, rfl⟩

/-- C9: the object list is the domain constants followed by the problem
objects, and the type index maps each type name to the list of all built
objects satisfying that type (each object appearing under every type it
satisfies, in object-list order). -/
theorem getObjects_type_index (dc po : List Object) (t : String)
    (h : ∀ o ∈ GetObjects dc po, o.typeNames.Nodup) :
    GetObjects dc po = dc ++ po ∧
    lookupTypeMap (CreateObjectTypeMap (GetObjects dc po)) t =
      (dc ++ po).filter (fun o => decide (t ∈ o.typeNames)) :=
  ⟨rfl, lookupTypeMap_create _ t h⟩

/-- Witness for C9 on the blocks scenario's object lists. -/
theorem getObjects_type_index_witness :
    GetObjects [] [objA, objB] = [] ++ [objA, objB] ∧
    lookupTypeMap (CreateObjectTypeMap (GetObjects [] [objA, objB]))
        "block" =
      ([] ++ [objA, objB]).filter
        (fun o => decide ("block" ∈ o.typeNames)) :=
  getObjects_type_index [] [objA, objB] "block" (by decide)

/-- C10: `IsValidPlan` on the empty plan is exactly the goal test on the
façade's initial state, which is the set of the problem's initial effects
with no action applied and no derived-predicate closure run. -/
theorem isValidPlan_empty_goal_on_initial (pddl : Pddl) :
    pddl.IsValidPlan [] =
      some (pddl.goal pddl.initial_effects.toFinset) ∧
    pddl.initial_state = pddl.initial_effects.toFinset := by
  have h := getInitialState_toFinset pddl.initial_effects
  constructor
  · show IsValidPlanAux pddl pddl.initial_state [] = _
    rw [IsValidPlanAux]
    rw [Pddl.initial_state, h]
  · exact h

/-- C6 (counterexample): the call `act(y)` passes `IsValidAction` — the
call parser checks only that the action and object names are known and
the arity matches, not that `y` has the parameter's type, and the
precondition of `act` is trivially true — yet `ListValidActions`
enumerates only correctly-typed tuples, so `act(y)` is not listed: the
claimed iff fails. -/
theorem listValidActions_incomplete_counterexample :
    pddlTwoTypes.IsValidAction (∅ : State) "act(y)" = some true ∧
    "act(y)" ∉ pddlTwoTypes.ListValidActions (∅ : State) := by
  exact ⟨by decide, by decide⟩

/-- C6 (amended): for a façade whose action names are unique and clean and
whose objects are well-registered with duplicate-free type sets (as the
loader guarantees), `ListValidActions(S)` contains a text `t` iff `t`
renders some action over a tuple of the Parameter Generator (i.e. a
correctly-typed tuple) whose precondition holds in `S`; every listed text
passes `IsValidAction`; the list has no duplicates; and
`ListValidArguments` is exactly the generator filtered by the
precondition. -/
theorem pddl_listValidActions_amended (pddl : Pddl) (S : State)
    (hnd : (pddl.actions.map (fun x => x.name)).Nodup)
    (hclean : ∀ a ∈ pddl.actions, cleanName a.name = true)
    (hreg : ∀ o ∈ pddl.objects, Registered pddl o)
    (htn : ∀ o ∈ pddl.objects, o.typeNames.Nodup) :
    (∀ t, t ∈ pddl.ListValidActions S ↔
      ∃ a ∈ pddl.actions,
        ∃ args ∈ ParameterGenerator pddl.object_map a.parameters,
          a.IsValid S args = true ∧ t = a.to_string args) ∧
    (∀ t ∈ pddl.ListValidActions S, pddl.IsValidAction S t = some true) ∧
    (pddl.ListValidActions S).Nodup ∧
    (∀ a : Action, pddl.ListValidArguments S a =
      (ParameterGenerator pddl.object_map a.parameters).filter
        (fun args => a.IsValid S args)) := by
  have hparse : ∀ a ∈ pddl.actions,
      ∀ args ∈ ParameterGenerator pddl.object_map a.parameters,
      Action.Parse pddl (a.to_string args) = some (a, args) := by
    intro a ha args hargs
    exact actionParse_to_string pddl a args (hclean a ha)
      (find?_action_of_nodup pddl.actions a hnd ha)
      (fun o ho => hreg o
        (parameterGenerator_subset pddl a.parameters htn args hargs o ho))
      (parameterGenerator_length pddl.object_map a.parameters args hargs)
  have hmem : ∀ t, t ∈ pddl.ListValidActions S ↔
      ∃ a ∈ pddl.actions,
        ∃ args ∈ ParameterGenerator pddl.object_map a.parameters,
          a.IsValid S args = true ∧ t = a.to_string args := by
    intro t
    simp only [Pddl.ListValidActions, List.mem_flatMap, List.mem_map,
      Pddl.ListValidArguments, List.mem_filter]
    constructor
    · rintro ⟨a, ha, args, ⟨hargs, hvalid⟩, rfl⟩
      exact ⟨a, ha, args, hargs, hvalid, rfl⟩
    · rintro ⟨a, ha, args, hargs, hvalid, rfl⟩
      exact ⟨a, ha, args, ⟨hargs, hvalid⟩, rfl⟩
  refine ⟨hmem, ?_, ?_, fun a => rfl⟩
  · intro t ht
    obtain ⟨a, ha, args, hargs, hvalid, rfl⟩ := (hmem t).mp ht
    simp [Pddl.IsValidAction, hparse a ha args hargs, hvalid]
  · rw [Pddl.ListValidActions, List.nodup_flatMap]
    constructor
    · intro a ha
      refine List.Nodup.map_on ?_
        ((parameterGenerator_nodup pddl.object_map a.parameters).filter _)
      intro x hx y hy hxy
      have hx2 : x ∈ ParameterGenerator pddl.object_map a.parameters := by
        have := hx
        rw [Pddl.ListValidArguments] at this
        exact (List.mem_filter.mp this).1
      have hy2 : y ∈ ParameterGenerator pddl.object_map a.parameters := by
        have := hy
        rw [Pddl.ListValidArguments] at this
        exact (List.mem_filter.mp this).1
      have h1 := hparse a ha x hx2
      have h2 := hparse a ha y hy2
      rw [hxy, h2] at h1
      have := Option.some_inj.mp h1
      exact (Prod.ext_iff.mp this).2.symm
    · have hnd2 : pddl.actions.Pairwise (fun a b => a.name ≠ b.name) := by
        have h2 : (pddl.actions.map (fun x => x.name)).Pairwise
            (fun a b => a ≠ b) := by
          simpa [List.Nodup] using hnd
        exact (List.pairwise_map).mp h2
      refine hnd2.imp_of_mem ?_
      intro a b ha hb hab
      intro t ht1 ht2
      simp only [Function.onFun, List.mem_map] at ht1 ht2
      obtain ⟨x, hx, rfl⟩ := ht1
      obtain ⟨y, hy, hyx⟩ := ht2
      have hx2 : x ∈ ParameterGenerator pddl.object_map a.parameters := by
        have := hx
        rw [Pddl.ListValidArguments] at this
        exact (List.mem_filter.mp this).1
      have hy2 : y ∈ ParameterGenerator pddl.object_map b.parameters := by
        have := hy
        rw [Pddl.ListValidArguments] at this
        exact (List.mem_filter.mp this).1
      have h1 := hparse a ha x hx2
      have h2 := hparse b hb y hy2
      rw [hyx] at h2
      have h3 := Option.some_inj.mp (h1.symm.trans h2)
      exact hab (congrArg (fun pr => pr.1.name) h3)

/-- Witness for the amended C6 on the blocks scenario's initial state. -/
theorem pddl_listValidActions_amended_witness :
    (∀ t, t ∈ pddlBlocks.ListValidActions pddlBlocks.initial_state ↔
      ∃ a ∈ pddlBlocks.actions,
        ∃ args ∈ ParameterGenerator pddlBlocks.object_map a.parameters,
          a.IsValid pddlBlocks.initial_state args = true ∧
            t = a.to_string args) ∧
    (∀ t ∈ pddlBlocks.ListValidActions pddlBlocks.initial_state,
      pddlBlocks.IsValidAction pddlBlocks.initial_state t = some true) ∧
    (pddlBlocks.ListValidActions pddlBlocks.initial_state).Nodup ∧
    (∀ a : Action,
      pddlBlocks.ListValidArguments pddlBlocks.initial_state a =
        (ParameterGenerator pddlBlocks.object_map a.parameters).filter
          (fun args => a.IsValid pddlBlocks.initial_state args)) :=
  pddl_listValidActions_amended pddlBlocks pddlBlocks.initial_state
    (by decide) (by decide) (by decide) (by decide)

end Symbolic
